import Mathlib

/-!
# Verification of the reactor event-loop core (`lib/C/reactor.c`)

This file gives a shallow embedding of the single-threaded reactor runtime
core found in `src/xtext/org.icyphy.linguafranca/src/lib/C/reactor.c` and
proves properties of its scheduler API (`schedule`), its event loop (`next`)
and its lifecycle driver (`main`).

The C file `#include`s `reactor_common.c`, which is not part of the sources
here; only its callers are.  The functions it provides that the claims need
(`__schedule`, `wait_until`) are therefore modelled from the specification
(marked `Modelled from the spec:` in their doc comments).  Everything else is
translated directly from `reactor.c`.

Modelling conventions:
* `instant_t` / `interval_t` (signed 64-bit nanoseconds) are modelled as
  `Int`; the claims under study are not about 64-bit wraparound, so the
  arithmetic is exact, with `LLONG_MAX` as a named constant where the code
  uses it as a sentinel.
* The priority queues (`pqueue_t`) are modelled as lists kept sorted by the
  respective comparator (`event_q` by time, `reaction_q` by reaction index);
  `peek` is `head?`, `pop` takes the head.  `recycle_q` and `free_q` are
  pools whose internal order is irrelevant (all stored timestamps are
  zeroed); they are modelled as plain lists.
* Triggers and reactions form a static, possibly cyclic graph; following the
  arena style, they are referenced by `Nat` identifiers resolved through a
  `Graph` of total maps.
* Reaction function bodies are opaque: invoking one is recorded in an
  observable trace (`Entry.invoke`), and `trigger_output_reactions` (a
  generator-supplied hook) is modelled by an oracle `Graph.outputs` giving
  the downstream reactions it enqueues, plus an `Entry.chain` trace mark.
* The physical clock (`clock_gettime`) is an oracle `phys : Nat → Int`
  sampled at an incrementing counter; signals interrupting `wait_until` are
  an oracle `sig : Bool` (one wait happens per `next` call).
* The two unbounded `while` loops inside `next` take a fuel parameter; a
  distinguished outcome records fuel exhaustion, and another records the
  NULL-pointer dereference that popping an empty `event_q` would be.
* `State.drained` and `State.freed` are ghost trace fields recording, for
  accounting, the events popped from `event_q` and the payload pointers
  passed to `free`; no code branches on them.
-/

namespace ReactorC

/-- `LLONG_MAX`, used by `next` as the wait bound when `event_q` is empty. -/
def LLONG_MAX : Int := 9223372036854775807

/-! ## Superdense-time tags (spec §3)

The spec describes tags `(instant, microstep)` ordered lexicographically.
The `reactor.c` under study keeps only the instant in its state (`current_time`);
the microstep is implicit in its queue discipline.  The tag model below is
used to state the scheduler-API claims, which the spec phrases over tags. -/

/-- A superdense-time tag: 64-bit nanosecond instant plus microstep. -/
structure Tag where
  time : Int
  microstep : Nat
deriving DecidableEq

/-- Lexicographic order on tags (spec §3). -/
def Tag.le (a b : Tag) : Prop :=
  a.time < b.time ∨ (a.time = b.time ∧ a.microstep ≤ b.microstep)

instance : DecidablePred fun p : Tag × Tag => Tag.le p.1 p.2 := by
  intro p
  unfold Tag.le
  infer_instance

instance (a b : Tag) : Decidable (Tag.le a b) := by
  unfold Tag.le
  infer_instance

/-- Static trigger descriptor (`trigger_t`): declared offset, period
(`0` = not periodic), and the reactions it fires (reaction ids, in array
order). -/
structure Trigger where
  offset : Int
  period : Int
  reactions : List Nat
deriving DecidableEq

/-- Static reaction descriptor (`reaction_t`): topological priority `index`,
`deadline` (`0` = none) and the optional deadline-violation trigger id. -/
structure Reaction where
  index : Nat
  deadline : Int
  deadlineViolation : Option Nat
deriving DecidableEq

/-- The static trigger/reaction graph plus the generator-supplied hook
`trigger_output_reactions`, modelled as an oracle from a reaction id to the
downstream reactions it enqueues. -/
structure Graph where
  triggers : Nat → Trigger
  reactions : Nat → Reaction
  outputs : Nat → List Nat

/-! ## Scheduler-API tag computation (claims about `schedule`)

`schedule` (reactor.c line 19) computes `trigger->offset + extra_delay` and
hands it to `__schedule`, which lives in the missing `reactor_common.c`. -/

/-- Modelled from the spec: the firing tag computed by `__schedule`
(`reactor_common.c`, not among the sources; only its callers are).  Spec
§4.1: the tag is `(current_instant + delay, μ)` where a negative delay is
clamped so that the tag never precedes `current_tag`, and a zero net delay
yields the same instant one microstep later (`μ = microstep + 1`), while a
positive delay resets `μ = 0`. -/
def scheduleTagDelay (current : Tag) (delay : Int) : Tag :=
  let d := max 0 delay
  if d = 0 then ⟨current.time, current.microstep + 1⟩
  else ⟨current.time + d, 0⟩

/-- `schedule(trigger, extra_delay, payload)` (reactor.c line 20): passes
`trigger->offset + extra_delay` as the delay to `__schedule`; the firing tag
it determines. -/
def scheduleTag (current : Tag) (t : Trigger) (extraDelay : Int) : Tag :=
  scheduleTagDelay current (t.offset + extraDelay)

/-! ## Events and the runtime state -/

/-- A dynamic event record (`event_t`): firing time, target trigger id, and
optional payload (an abstract pointer value; `none` = NULL). -/
structure Event where
  time : Int
  trigger : Nat
  payload : Option Nat
deriving DecidableEq

/-- Observable actions of one `next` call, in program order. -/
inductive Entry where
  /-- a reaction function was invoked (directly, i.e. `r->function(r->self)`),
  with the logical time current at the call -/
  | invoke (rid : Nat) (time : Int)
  /-- `trigger_output_reactions(r)` was called for reaction `r` -/
  | chain (rid : Nat)
  /-- `__schedule(trigger, delay, payload)` was called -/
  | sched (trigger : Nat) (delay : Int) (payload : Option Nat)
  /-- `wait_until(target)` was entered -/
  | wait (target : Int)
deriving DecidableEq

/-- The process-wide mutable state of the single-threaded core. -/
structure State where
  eventQ : List Event
  reactionQ : List Nat
  recycleQ : List Event
  freeQ : List Event
  currentTime : Int
  stopTime : Int
  stopRequested : Bool
  waitSpecified : Bool
  /-- per-trigger `payload` scratch fields, newest binding first -/
  trigPayloads : List (Nat × Option Nat)
  /-- number of `clock_gettime` calls made so far (oracle index) -/
  clock : Nat
  /-- ghost: payload pointers passed to `free`, in call order -/
  freed : List (Option Nat)
  /-- ghost: events popped from `event_q`, in pop order -/
  drained : List Event
  trace : List Entry
deriving DecidableEq

/-- Insert into the time-ordered `event_q` (new entry goes after ties). -/
def insertEvent (x : Event) : List Event → List Event
  | [] => [x]
  | y :: ys => if x.time < y.time then x :: y :: ys else y :: insertEvent x ys

/-- Insert into the index-ordered `reaction_q` (new entry goes after ties). -/
def insertReaction (g : Graph) (x : Nat) : List Nat → List Nat
  | [] => [x]
  | y :: ys =>
    if (g.reactions x).index < (g.reactions y).index then x :: y :: ys
    else y :: insertReaction g x ys

/-- Insert each reaction of `rs` into the reaction queue in array order. -/
def enqueueAll (g : Graph) (rs : List Nat) (q : List Nat) : List Nat :=
  rs.foldl (fun acc x => insertReaction g x acc) q

/-- Look up a trigger's `payload` scratch field. -/
def lookupTP (l : List (Nat × Option Nat)) (k : Nat) : Option (Option Nat) :=
  match l with
  | [] => none
  | (k', v) :: rest => if k' = k then some v else lookupTP rest k

/-- Modelled from the spec: the state effect of `__schedule`
(`reactor_common.c`, not among the sources; only its callers are).  Per spec
§4.1 it acquires an event record (from `recycle_q` if available, else fresh —
record identity does not matter here because every field is overwritten),
stamps it `current_time` plus the clamped non-negative delay, gives it the
payload, and inserts it into `event_q`.  In this core the state carries no
microstep, so a clamped-to-zero delay lands at `current_time` itself, which
the drain discipline of `next` turns into the next microstep. -/
def schedInsert (trig : Nat) (delay : Int) (payload : Option Nat) (s : State) : State :=
  let e : Event := ⟨s.currentTime + max 0 delay, trig, payload⟩
  { s with
    eventQ := insertEvent e s.eventQ
    recycleQ := s.recycleQ.tail
    trace := s.trace ++ [Entry.sched trig delay payload] }

/-- Modelled from the spec: `wait_until` (`reactor_common.c`, not among the
sources; only its callers are).  It blocks until physical time reaches
`target`, advancing `current_time` to `target` and returning non-negative —
except: a configured stop time caps the wait (spec §6: the program ends when
the instant reaches `stop_time`; §4.2 step 2: the wait may be interrupted by
a stop request), ending it at `stop_time` with a negative return; a signal
(`sig`) interrupts the wait with a negative return and `current_time` not yet
advanced (spec §4.2 step 2, §7 Transient); and physical time never reaches
`LLONG_MAX`, so an uncapped, unsignalled wait on `LLONG_MAX` never ends
(`none`).  Result: `some (returnValue, newCurrentTime)`, or `none` for a
wait that never ends. -/
def wait_until (stopTime current target : Int) (sig : Bool) : Option (Int × Int) :=
  if sig then some (-2, current)
  else if 0 < stopTime ∧ stopTime < target then
    if stopTime = LLONG_MAX then none else some (-1, stopTime)
  else if target = LLONG_MAX then none
  else some (0, target)

/-! ## The body of `next` (reactor.c lines 38-166) -/

/-- Processing of one popped event (reactor.c lines 81-106): push the
trigger's reactions onto `reaction_q`; if periodic, re-schedule the trigger
with delay `period - offset` and NULL payload (line 91, calling
`__schedule` directly); copy the payload pointer into the trigger; zero the
record's time stamp; park the record in `recycle_q` (NULL payload) or
`free_q` (payload to free at end of tag).  `s` is the state after the pop
(event already removed from `event_q`). -/
def drainStep (g : Graph) (e : Event) (s : State) : State :=
  let trig := g.triggers e.trigger
  let s1 := { s with
    reactionQ := enqueueAll g trig.reactions s.reactionQ
    drained := s.drained ++ [e] }
  let s2 :=
    if 0 < trig.period then schedInsert e.trigger (trig.period - trig.offset) none s1
    else s1
  let s3 := { s2 with trigPayloads := (e.trigger, e.payload) :: s2.trigPayloads }
  let e0 : Event := { e with time := 0 }
  match e.payload with
  | none => { s3 with recycleQ := s3.recycleQ ++ [e0] }
  | some _ => { s3 with freeQ := s3.freeQ ++ [e0] }

/-- Result of the drain do-while loop. -/
inductive DrainRes where
  /-- loop finished normally -/
  | ok (s : State)
  /-- the unconditional first pop found `event_q` empty: in C this
  dereferences a NULL `event_t*` -/
  | npe (s : State)
  /-- fuel ran out -/
  | fuelOut (s : State)
deriving DecidableEq

/-- The state carried by a drain-loop result. -/
def DrainRes.st : DrainRes → State
  | .ok s => s
  | .npe s => s
  | .fuelOut s => s

/-- The drain do-while loop (reactor.c lines 79-109): pop unconditionally,
process, then continue while the head of `event_q` exists and carries the
current time. -/
def drainLoop (g : Graph) : Nat → State → DrainRes
  | 0, s => .fuelOut s
  | fuel + 1, s =>
    match s.eventQ with
    | [] => .npe s
    | e :: rest =>
      let s1 := drainStep g e { s with eventQ := rest }
      match s1.eventQ with
      | [] => .ok s1
      | e2 :: _ => if e2.time = s1.currentTime then drainLoop g fuel s1 else .ok s1

/-- One reaction dispatch (reactor.c lines 113-150), for the popped reaction
`rid` (`s` is the state after the pop).  If the reaction has a deadline,
sample the physical clock; on violation invoke each reaction of the
deadline-violation trigger directly — their outputs are *not* chained (the
`trigger_output_reactions` call there is commented out in the source with a
FIXME).  Then invoke the reaction's own function and chain its outputs. -/
def invokeStep (g : Graph) (phys : Nat → Int) (rid : Nat) (s : State) : State :=
  let r := g.reactions rid
  let s1 :=
    if 0 < r.deadline then
      let p := phys s.clock
      let sc := { s with clock := s.clock + 1 }
      if sc.currentTime + r.deadline < p then
        match r.deadlineViolation with
        | some tid =>
          { sc with trace := sc.trace ++
              (g.triggers tid).reactions.map (fun h => Entry.invoke h sc.currentTime) }
        | none => sc
      else sc
    else s
  { s1 with
    trace := s1.trace ++ [Entry.invoke rid s1.currentTime, Entry.chain rid]
    reactionQ := enqueueAll g (g.outputs rid) s1.reactionQ }

/-- The reaction-dispatch loop (reactor.c lines 112-151): while `reaction_q`
is non-empty, pop the smallest-index reaction and dispatch it.  `none` means
the fuel ran out. -/
def invokeLoop (g : Graph) (phys : Nat → Int) : Nat → State → Option State
  | 0, _ => none
  | fuel + 1, s =>
    match s.reactionQ with
    | [] => some s
    | rid :: rest => invokeLoop g phys fuel (invokeStep g phys rid { s with reactionQ := rest })

/-- End-of-tag payload release (reactor.c lines 154-159): pop everything from
`free_q`, `free` each record's payload, and return the record to
`recycle_q`. -/
def freePhase (s : State) : State :=
  { s with
    freeQ := []
    recycleQ := s.recycleQ ++ s.freeQ
    freed := s.freed ++ s.freeQ.map (fun e => e.payload) }

/-- Outcome of one `next` call. -/
inductive Outcome where
  /-- `next` returned `code` -/
  | ret (code : Int) (s : State)
  /-- `next` is blocked forever inside `wait_until` -/
  | hang (s : State)
  /-- NULL-pointer dereference: the drain loop popped an empty `event_q` -/
  | npe (s : State)
  /-- fuel ran out inside one of the loops -/
  | fuelOut (s : State)
deriving DecidableEq

/-- The state carried by an outcome. -/
def Outcome.st : Outcome → State
  | .ret _ s => s
  | .hang s => s
  | .npe s => s
  | .fuelOut s => s

/-- The return code, when `next` returned. -/
def Outcome.retCode : Outcome → Option Int
  | .ret c _ => some c
  | _ => none

/-- Whether the outcome is the NULL-pointer dereference. -/
def Outcome.isNpe : Outcome → Bool
  | .npe _ => true
  | _ => false

/-- Everything `next` does after the wait (reactor.c lines 74-165):
`__start_time_step()` (a generator hook with no effect on the modelled
state), the drain loop, the reaction loop, the payload release, and the
final stop-time check (lines 161-165). -/
def afterWait (g : Graph) (fuel : Nat) (phys : Nat → Int) (s : State) : Outcome :=
  match drainLoop g fuel s with
  | .npe s1 => .npe s1
  | .fuelOut s1 => .fuelOut s1
  | .ok s1 =>
    match invokeLoop g phys fuel s1 with
    | none => .fuelOut s1
    | some s2 =>
      let s3 := freePhase s2
      if 0 < s3.stopTime ∧ s3.stopTime ≤ s3.currentTime then
        .ret 0 { s3 with stopRequested := true }
      else .ret 1 s3

/-- The wait and interrupt handling of `next` (reactor.c lines 53-70),
followed by the rest of the iteration.  On a negative `wait_until` return the
queue is re-peeked; in this single-threaded core no other thread can have
touched `event_q` during the wait, so `new_event == event` always holds and
the `else` branch of line 65 (adopt a new earlier event) is dead.  If the
stop time has been reached or the head is NULL, set `stop_requested` and
return 0; otherwise control falls through to the drain phase. -/
def waitPhase (g : Graph) (fuel : Nat) (phys : Nat → Int) (sig : Bool)
    (target : Int) (s : State) : Outcome :=
  let s1 := { s with trace := s.trace ++ [Entry.wait target] }
  match wait_until s1.stopTime s1.currentTime target sig with
  | none => .hang s1
  | some (rv, cur) =>
    let s2 := { s1 with currentTime := cur }
    if rv < 0 then
      if (0 < s2.stopTime ∧ s2.stopTime ≤ s2.currentTime) ∨ s2.eventQ = [] then
        .ret 0 { s2 with stopRequested := true }
      else afterWait g fuel phys s2
    else afterWait g fuel phys s2

/-- One call to `next()` (reactor.c lines 38-166).  Peek `event_q`: if empty
and `-wait` was not given, return 0 immediately; otherwise wait until the
head's time (or `LLONG_MAX` if the queue is empty) and run the iteration. -/
def next (g : Graph) (fuel : Nat) (sig : Bool) (phys : Nat → Int) (s : State) : Outcome :=
  match s.eventQ with
  | [] =>
    if s.waitSpecified then waitPhase g fuel phys sig LLONG_MAX s
    else .ret 0 s
  | e :: _ => waitPhase g fuel phys sig e.time s

/-! ## The driver (reactor.c lines 182-192) -/

/-- Result of the main `while (next() != 0 && !stop_requested);` loop. -/
inductive RunRes where
  /-- the loop exited -/
  | done (s : State)
  /-- an iteration hung, crashed, or ran out of fuel -/
  | stuck (o : Outcome)
  /-- loop-iteration fuel ran out -/
  | fuelOut (s : State)
deriving DecidableEq

/-- The driver loop of `main` (reactor.c line 186): run `next` until it
returns 0 or `stop_requested` is set.  `k` indexes the signal oracle. -/
def loopRun (g : Graph) (nfuel : Nat) (phys : Nat → Int) (sigs : Nat → Bool) :
    Nat → Nat → State → RunRes
  | 0, _, s => .fuelOut s
  | lfuel + 1, k, s =>
    match next g nfuel (sigs k) phys s with
    | .ret c s' =>
      if c = 0 then .done s'
      else if s'.stopRequested then .done s'
      else loopRun g nfuel phys sigs lfuel (k + 1) s'
    | o => .stuck o

/-- The lifecycle phases of `main` (reactor.c lines 182-192).  `setup` stands
for `initialize()` (a `reactor_common.c` function, abstracted: the state it
builds is the `s0` handed to the loop). -/
inductive Phase where
  | setup
  | startTimers
  | mainLoop
  | wrapupPhase
deriving DecidableEq

/-- Result of `main`: exit code and the lifecycle phases that ran, or no
exit (the loop hung or the model ran out of fuel after the listed phases). -/
inductive MainRes where
  | exit (code : Int) (phases : List Phase)
  | noExit (phases : List Phase)
deriving DecidableEq

/-- `main` (reactor.c lines 182-192): if `process_args` succeeds (its verdict
is the oracle `argsOk`), run `initialize`, `__start_timers` (their combined
effect is the start state `s0`), the `next` loop, then `wrapup`, and return
0; otherwise return -1 with nothing run. -/
def mainFn (g : Graph) (nfuel lfuel : Nat) (phys : Nat → Int) (sigs : Nat → Bool)
    (argsOk : Bool) (s0 : State) : MainRes :=
  if argsOk then
    match loopRun g nfuel phys sigs lfuel 0 s0 with
    | .done _ => .exit 0 [.setup, .startTimers, .mainLoop, .wrapupPhase]
    | _ => .noExit [.setup, .startTimers, .mainLoop]
  else .exit (-1) []

/-! ## Observation helpers used by the statements -/

/-- The records the drain phase parks in `free_q` for a list of popped
events: those with a payload, time stamp zeroed. -/
def parked (l : List Event) : List Event :=
  l.filterMap (fun e =>
    match e.payload with
    | none => none
    | some _ => some { e with time := 0 })

/-- How many `wait_until` calls a trace records. -/
def countWait (l : List Entry) : Nat :=
  l.countP (fun x => match x with | Entry.wait _ => true | _ => false)

/-- The logical times of the reaction invocations in a trace, in order. -/
def invokeTimes (l : List Entry) : List Int :=
  l.filterMap (fun x => match x with | Entry.invoke _ t => some t | _ => none)

/-! ## Concrete fixtures for counterexamples and witnesses -/

/-- A physical clock frozen at 0. -/
def physZero : Nat → Int := fun _ => 0

/-- A physical clock stalled far in the future (for deadline violations). -/
def physLate : Nat → Int := fun _ => 500

/-- A signal oracle that never fires. -/
def sigsNone : Nat → Bool := fun _ => false

/-- A trigger with zero offset and no period. -/
def trigZero : Trigger := ⟨0, 0, []⟩

/-- One trigger (offset 0, not periodic) firing reaction 0; no outputs. -/
def gSimple : Graph :=
  { triggers := fun _ => ⟨0, 0, [0]⟩
    reactions := fun _ => ⟨0, 0, none⟩
    outputs := fun _ => [] }

/-- One periodic trigger: offset 1, period 3, firing reaction 0. -/
def gPeriodic : Graph :=
  { triggers := fun _ => ⟨1, 3, [0]⟩
    reactions := fun _ => ⟨0, 0, none⟩
    outputs := fun _ => [] }

/-- Reaction 0 has deadline 10 with violation trigger 7, whose handler
reactions are 5 and 6; every other reaction is plain. -/
def gDeadline : Graph :=
  { triggers := fun t => if t = 7 then ⟨0, 0, [5, 6]⟩ else ⟨0, 0, [0]⟩
    reactions := fun r => if r = 0 then ⟨0, 10, some 7⟩ else ⟨r, 0, none⟩
    outputs := fun _ => [] }

/-- A start state with empty queues, logical time 0 and no stop time. -/
def st0 : State :=
  { eventQ := [], reactionQ := [], recycleQ := [], freeQ := []
    currentTime := 0, stopTime := 0, stopRequested := false, waitSpecified := false
    trigPayloads := [], clock := 0, freed := [], drained := [], trace := [] }

/-- One event for trigger 0 at time 100, logical time 0. -/
def stAt100 : State := { st0 with eventQ := [⟨100, 0, none⟩] }

/-- Like `stAt100` but with stop time 100. -/
def stStop100 : State := { stAt100 with stopTime := 100 }

/-- One event for the periodic trigger at its offset instant 1. -/
def stPeriodic : State := { st0 with eventQ := [⟨1, 0, none⟩] }

/-- Two events at time 5 for trigger 0: one with payload 42, one without. -/
def stPayload : State := { st0 with eventQ := [⟨5, 0, some 42⟩, ⟨5, 0, none⟩] }

/-- Empty event queue with `-wait` given. -/
def stEmptyWait : State := { st0 with waitSpecified := true }

/-- Logical time 100 with everything else empty (post-pop state for a
deadline dispatch). -/
def stC3 : State := { st0 with currentTime := 100 }

/-- The state after one `next` iteration from `stStop100`. -/
def stStop100Run : State := (next gSimple 8 false physZero stStop100).st

/-- The state after one `next` iteration from `stPeriodic`. -/
def stPeriodic1 : State := (next gPeriodic 8 false physZero stPeriodic).st

/-- The state after two `next` iterations from `stPeriodic`. -/
def stPeriodic2 : State := (next gPeriodic 8 false physZero stPeriodic1).st

/-- The post-pop state for the first firing of the periodic trigger: the
event at instant 1 has been popped, logical time is 1. -/
def stPeriodicPop : State := { st0 with currentTime := 1 }

/-- The state after one `next` iteration from `stPayload`. -/
def stPayloadRun : State := (next gSimple 8 false physZero stPayload).st

/-! ## Helper lemmas -/

theorem countWait_append (a b : List Entry) :
    countWait (a ++ b) = countWait a + countWait b := by
  simp [countWait, List.countP_append]

theorem parked_append (a b : List Event) : parked (a ++ b) = parked a ++ parked b := by
  simp [parked, List.filterMap_append]

theorem parked_payloads (l : List Event) :
    (parked l).map (fun e => e.payload) =
      (l.filterMap (fun e => e.payload)).map Option.some := by
  induction l with
  | nil => simp [parked]
  | cons e rest ih =>
    cases hp : e.payload <;>
      simp [parked, List.filterMap_cons, hp] <;>
      simpa [parked] using ih

theorem parked_mem (l : List Event) (e : Event) (he : e ∈ l) (hp : e.payload ≠ none) :
    ({ e with time := 0 } : Event) ∈ parked l := by
  induction l with
  | nil => cases he
  | cons x rest ih =>
    have hsplit : parked (x :: rest) = parked [x] ++ parked rest := by
      simpa using parked_append [x] rest
    rw [hsplit, List.mem_append]
    rcases List.mem_cons.1 he with rfl | hmem
    · left
      cases hx : e.payload with
      | none => exact absurd hx hp
      | some p => simp [parked, List.filterMap_cons, hx]
    · right; exact ih hmem

theorem drainStep_fields (g : Graph) (e : Event) (s : State) :
    (drainStep g e s).currentTime = s.currentTime ∧
    (drainStep g e s).stopTime = s.stopTime ∧
    (drainStep g e s).stopRequested = s.stopRequested ∧
    (drainStep g e s).waitSpecified = s.waitSpecified ∧
    (drainStep g e s).freed = s.freed ∧
    (drainStep g e s).clock = s.clock ∧
    (drainStep g e s).drained = s.drained ++ [e] ∧
    (drainStep g e s).freeQ = s.freeQ ++ parked [e] := by
  cases hp : e.payload <;>
    by_cases hper : 0 < (g.triggers e.trigger).period <;>
    simp [drainStep, schedInsert, parked, hp, hper]

theorem drainStep_trace (g : Graph) (e : Event) (s : State) :
    (drainStep g e s).trace = s.trace ∨
    (drainStep g e s).trace = s.trace ++
      [Entry.sched e.trigger ((g.triggers e.trigger).period - (g.triggers e.trigger).offset) none] := by
  cases hp : e.payload <;>
    by_cases hper : 0 < (g.triggers e.trigger).period <;>
    simp [drainStep, schedInsert, hp, hper]

theorem drainStep_countWait (g : Graph) (e : Event) (s : State) :
    countWait (drainStep g e s).trace = countWait s.trace := by
  rcases drainStep_trace g e s with h | h <;>
    simp [h, countWait_append, countWait, List.countP_cons]

theorem drainStep_invoke_mem (g : Graph) (e : Event) (s : State) (rid : Nat) (t : Int)
    (h : Entry.invoke rid t ∈ (drainStep g e s).trace) : Entry.invoke rid t ∈ s.trace := by
  rcases drainStep_trace g e s with he | he <;> rw [he] at h
  · exact h
  · rcases List.mem_append.1 h with h1 | h1
    · exact h1
    · simp at h1

theorem drainLoop_ok_spec (g : Graph) :
    ∀ fuel s s', drainLoop g fuel s = .ok s' →
      s'.currentTime = s.currentTime ∧ s'.stopTime = s.stopTime ∧
      s'.stopRequested = s.stopRequested ∧ s'.waitSpecified = s.waitSpecified ∧
      s'.freed = s.freed ∧ s'.clock = s.clock ∧
      ∃ popped, s'.drained = s.drained ++ popped ∧ s'.freeQ = s.freeQ ++ parked popped := by
  intro fuel
  induction fuel with
  | zero => intro s s' h; simp [drainLoop] at h
  | succ n ih =>
    intro s s' h
    unfold drainLoop at h
    cases hq : s.eventQ with
    | nil => rw [hq] at h; simp at h
    | cons e rest =>
      rw [hq] at h
      simp only at h
      have hstep := drainStep_fields g e { s with eventQ := rest }
      split at h
      · cases h
        refine ⟨hstep.1, hstep.2.1, hstep.2.2.1, hstep.2.2.2.1, hstep.2.2.2.2.1,
          hstep.2.2.2.2.2.1, [e], hstep.2.2.2.2.2.2.1, hstep.2.2.2.2.2.2.2⟩
      · split at h
        · have hrec := ih _ _ h
          obtain ⟨p, hd, hf⟩ := hrec.2.2.2.2.2.2
          refine ⟨hrec.1.trans hstep.1, hrec.2.1.trans hstep.2.1,
            hrec.2.2.1.trans hstep.2.2.1, hrec.2.2.2.1.trans hstep.2.2.2.1,
            hrec.2.2.2.2.1.trans hstep.2.2.2.2.1, hrec.2.2.2.2.2.1.trans hstep.2.2.2.2.2.1,
            e :: p, ?_, ?_⟩
          · rw [hd, hstep.2.2.2.2.2.2.1]; simp
          · rw [hf, hstep.2.2.2.2.2.2.2]
            have : parked (e :: p) = parked [e] ++ parked p := by
              simpa using parked_append [e] p
            rw [this, List.append_assoc]
        · cases h
          refine ⟨hstep.1, hstep.2.1, hstep.2.2.1, hstep.2.2.2.1, hstep.2.2.2.2.1,
            hstep.2.2.2.2.2.1, [e], hstep.2.2.2.2.2.2.1, hstep.2.2.2.2.2.2.2⟩

theorem drainLoop_any (g : Graph) :
    ∀ fuel s, (drainLoop g fuel s).st.currentTime = s.currentTime ∧
      countWait (drainLoop g fuel s).st.trace = countWait s.trace ∧
      ∀ rid t, Entry.invoke rid t ∈ (drainLoop g fuel s).st.trace →
        Entry.invoke rid t ∈ s.trace := by
  intro fuel
  induction fuel with
  | zero => intro s; simp [drainLoop, DrainRes.st]
  | succ n ih =>
    intro s
    unfold drainLoop
    cases hq : s.eventQ with
    | nil => simp [DrainRes.st]
    | cons e rest =>
      simp only
      have hstep := drainStep_fields g e { s with eventQ := rest }
      have hcw := drainStep_countWait g e { s with eventQ := rest }
      have hm := fun rid t => drainStep_invoke_mem g e { s with eventQ := rest } rid t
      split
      · exact ⟨hstep.1, by simpa using hcw, fun rid t hmem => hm rid t hmem⟩
      · split
        · have hrec := ih (drainStep g e { s with eventQ := rest })
          exact ⟨hrec.1.trans hstep.1, hrec.2.1.trans (by simpa using hcw),
            fun rid t hmem => hm rid t (hrec.2.2 rid t hmem)⟩
        · exact ⟨hstep.1, by simpa using hcw, fun rid t hmem => hm rid t hmem⟩

theorem drainLoop_no_npe (g : Graph) :
    ∀ fuel s, s.eventQ ≠ [] → ∀ s1, drainLoop g fuel s ≠ .npe s1 := by
  intro fuel
  induction fuel with
  | zero => intro s _ s1 h; simp [drainLoop] at h
  | succ n ih =>
    intro s hne s1 h
    unfold drainLoop at h
    cases hq : s.eventQ with
    | nil => exact hne hq
    | cons e rest =>
      rw [hq] at h
      simp only at h
      split at h
      · cases h
      · split at h
        · exact ih _ (by rename_i heq _; simp [heq]) s1 h
        · cases h

theorem invokeStep_fields (g : Graph) (phys : Nat → Int) (rid : Nat) (s : State) :
    (invokeStep g phys rid s).currentTime = s.currentTime ∧
    (invokeStep g phys rid s).stopTime = s.stopTime ∧
    (invokeStep g phys rid s).stopRequested = s.stopRequested ∧
    (invokeStep g phys rid s).waitSpecified = s.waitSpecified ∧
    (invokeStep g phys rid s).eventQ = s.eventQ ∧
    (invokeStep g phys rid s).recycleQ = s.recycleQ ∧
    (invokeStep g phys rid s).freeQ = s.freeQ ∧
    (invokeStep g phys rid s).freed = s.freed ∧
    (invokeStep g phys rid s).drained = s.drained := by
  by_cases hdl : 0 < (g.reactions rid).deadline <;>
    by_cases hv : s.currentTime + (g.reactions rid).deadline < phys s.clock <;>
    cases hviol : (g.reactions rid).deadlineViolation <;>
    simp [invokeStep, hdl, hv, hviol]

theorem invokeStep_trace (g : Graph) (phys : Nat → Int) (rid : Nat) (s : State) :
    ∃ mid : List Nat, (invokeStep g phys rid s).trace =
      s.trace ++ mid.map (fun h => Entry.invoke h s.currentTime)
        ++ [Entry.invoke rid s.currentTime, Entry.chain rid] := by
  by_cases hdl : 0 < (g.reactions rid).deadline
  · by_cases hv : s.currentTime + (g.reactions rid).deadline < phys s.clock
    · cases hviol : (g.reactions rid).deadlineViolation with
      | none => exact ⟨[], by simp [invokeStep, hdl, hv, hviol]⟩
      | some tid => exact ⟨(g.triggers tid).reactions, by simp [invokeStep, hdl, hv, hviol]⟩
    · exact ⟨[], by simp [invokeStep, hdl, hv]⟩
  · exact ⟨[], by simp [invokeStep, hdl]⟩

theorem invokeStep_countWait (g : Graph) (phys : Nat → Int) (rid : Nat) (s : State) :
    countWait (invokeStep g phys rid s).trace = countWait s.trace := by
  obtain ⟨mid, hm⟩ := invokeStep_trace g phys rid s
  rw [hm, countWait_append, countWait_append]
  simp [countWait, List.countP_cons, List.countP_map, Function.comp]

theorem invokeStep_invoke_mem (g : Graph) (phys : Nat → Int) (rid : Nat) (s : State)
    (r : Nat) (t : Int) (h : Entry.invoke r t ∈ (invokeStep g phys rid s).trace) :
    Entry.invoke r t ∈ s.trace ∨ t = s.currentTime := by
  obtain ⟨mid, hm⟩ := invokeStep_trace g phys rid s
  rw [hm] at h
  rcases List.mem_append.1 h with h1 | h1
  · rcases List.mem_append.1 h1 with h2 | h2
    · exact Or.inl h2
    · rcases List.mem_map.1 h2 with ⟨x, _, hx⟩
      cases hx
      exact Or.inr rfl
  · simp at h1
    rcases h1 with ⟨rfl, rfl⟩
    exact Or.inr rfl

theorem invokeLoop_some_spec (g : Graph) (phys : Nat → Int) :
    ∀ fuel s s', invokeLoop g phys fuel s = some s' →
      s'.currentTime = s.currentTime ∧ s'.stopTime = s.stopTime ∧
      s'.stopRequested = s.stopRequested ∧ s'.waitSpecified = s.waitSpecified ∧
      s'.eventQ = s.eventQ ∧ s'.recycleQ = s.recycleQ ∧ s'.freeQ = s.freeQ ∧
      s'.freed = s.freed ∧ s'.drained = s.drained ∧
      countWait s'.trace = countWait s.trace ∧
      ∀ rid t, Entry.invoke rid t ∈ s'.trace →
        Entry.invoke rid t ∈ s.trace ∨ t = s.currentTime := by
  intro fuel
  induction fuel with
  | zero => intro s s' h; simp [invokeLoop] at h
  | succ n ih =>
    intro s s' h
    unfold invokeLoop at h
    cases hq : s.reactionQ with
    | nil =>
      rw [hq] at h
      simp only [Option.some.injEq] at h
      subst h
      exact ⟨rfl, rfl, rfl, rfl, rfl, rfl, rfl, rfl, rfl, rfl,
        fun rid t hm => Or.inl hm⟩
    | cons r rest =>
      rw [hq] at h
      simp only at h
      have hrec := ih _ _ h
      have hstep := invokeStep_fields g phys r { s with reactionQ := rest }
      have hcw := invokeStep_countWait g phys r { s with reactionQ := rest }
      have hm := fun r' t => invokeStep_invoke_mem g phys r { s with reactionQ := rest } r' t
      refine ⟨hrec.1.trans hstep.1, hrec.2.1.trans hstep.2.1,
        hrec.2.2.1.trans hstep.2.2.1, hrec.2.2.2.1.trans hstep.2.2.2.1,
        hrec.2.2.2.2.1.trans hstep.2.2.2.2.1, hrec.2.2.2.2.2.1.trans hstep.2.2.2.2.2.1,
        hrec.2.2.2.2.2.2.1.trans hstep.2.2.2.2.2.2.1,
        hrec.2.2.2.2.2.2.2.1.trans hstep.2.2.2.2.2.2.2.1,
        hrec.2.2.2.2.2.2.2.2.1.trans hstep.2.2.2.2.2.2.2.2,
        hrec.2.2.2.2.2.2.2.2.2.1.trans (by simpa using hcw), ?_⟩
      intro rid t hmem
      rcases hrec.2.2.2.2.2.2.2.2.2.2 rid t hmem with hin | heq
      · exact (hm rid t hin).imp id (fun hh => by simpa using hh)
      · right
        have : ({ s with reactionQ := rest } : State).currentTime = s.currentTime := rfl
        rw [← this]
        rw [heq]
        exact (invokeStep_fields g phys r { s with reactionQ := rest }).1

theorem freePhase_spec (s : State) :
    (freePhase s).freeQ = [] ∧ (freePhase s).recycleQ = s.recycleQ ++ s.freeQ ∧
    (freePhase s).freed = s.freed ++ s.freeQ.map (fun e => e.payload) ∧
    (freePhase s).currentTime = s.currentTime ∧ (freePhase s).stopTime = s.stopTime ∧
    (freePhase s).stopRequested = s.stopRequested ∧
    (freePhase s).waitSpecified = s.waitSpecified ∧
    (freePhase s).trace = s.trace ∧ (freePhase s).drained = s.drained := by
  simp [freePhase]

theorem afterWait_ret_spec (g : Graph) (fuel : Nat) (phys : Nat → Int) (s : State)
    (c : Int) (s' : State) (h : afterWait g fuel phys s = .ret c s') :
    (c = 0 ∨ c = 1) ∧ s'.currentTime = s.currentTime ∧ s'.stopTime = s.stopTime ∧
    s'.waitSpecified = s.waitSpecified ∧
    (0 < s'.stopTime → s'.stopTime ≤ s'.currentTime → c = 0 ∧ s'.stopRequested = true) := by
  unfold afterWait at h
  cases hd : drainLoop g fuel s with
  | npe s1 => rw [hd] at h; cases h
  | fuelOut s1 => rw [hd] at h; cases h
  | ok s1 =>
    rw [hd] at h
    simp only at h
    cases hi : invokeLoop g phys fuel s1 with
    | none => rw [hi] at h; cases h
    | some s2 =>
      rw [hi] at h
      simp only at h
      have hd' := drainLoop_ok_spec g fuel s s1 hd
      have hi' := invokeLoop_some_spec g phys fuel s1 s2 hi
      have hf := freePhase_spec s2
      split at h
      · cases h
        rename_i hcond
        refine ⟨Or.inl rfl, ?_, ?_, ?_, fun _ _ => ⟨rfl, rfl⟩⟩
        · show (freePhase s2).currentTime = s.currentTime
          rw [hf.2.2.2.1, hi'.1, hd'.1]
        · show (freePhase s2).stopTime = s.stopTime
          rw [hf.2.2.2.2.1, hi'.2.1, hd'.2.1]
        · show (freePhase s2).waitSpecified = s.waitSpecified
          rw [hf.2.2.2.2.2.2.1, hi'.2.2.2.1, hd'.2.2.2.1]
      · cases h
        rename_i hcond
        refine ⟨Or.inr rfl, ?_, ?_, ?_, fun h1 h2 => absurd ⟨h1, h2⟩ hcond⟩
        · rw [hf.2.2.2.1, hi'.1, hd'.1]
        · rw [hf.2.2.2.2.1, hi'.2.1, hd'.2.1]
        · rw [hf.2.2.2.2.2.2.1, hi'.2.2.2.1, hd'.2.2.2.1]

theorem afterWait_any (g : Graph) (fuel : Nat) (phys : Nat → Int) (s : State) :
    (afterWait g fuel phys s).st.currentTime = s.currentTime ∧
    countWait (afterWait g fuel phys s).st.trace = countWait s.trace ∧
    ∀ rid t, Entry.invoke rid t ∈ (afterWait g fuel phys s).st.trace →
      Entry.invoke rid t ∈ s.trace ∨ t = s.currentTime := by
  unfold afterWait
  have hany := drainLoop_any g fuel s
  cases hd : drainLoop g fuel s with
  | npe s1 =>
    rw [hd] at hany
    exact ⟨hany.1, hany.2.1, fun rid t hm => Or.inl (hany.2.2 rid t hm)⟩
  | fuelOut s1 =>
    rw [hd] at hany
    exact ⟨hany.1, hany.2.1, fun rid t hm => Or.inl (hany.2.2 rid t hm)⟩
  | ok s1 =>
    rw [hd] at hany
    simp only [DrainRes.st] at hany
    simp only
    cases hi : invokeLoop g phys fuel s1 with
    | none =>
      exact ⟨hany.1, hany.2.1, fun rid t hm => Or.inl (hany.2.2 rid t hm)⟩
    | some s2 =>
      simp only
      have hi' := invokeLoop_some_spec g phys fuel s1 s2 hi
      have hf := freePhase_spec s2
      have hcur : (freePhase s2).currentTime = s.currentTime := by
        rw [hf.2.2.2.1, hi'.1, hany.1]
      have hcw : countWait (freePhase s2).trace = countWait s.trace := by
        rw [hf.2.2.2.2.2.2.2.1, hi'.2.2.2.2.2.2.2.2.2.1, hany.2.1]
      have hmem : ∀ rid t, Entry.invoke rid t ∈ (freePhase s2).trace →
          Entry.invoke rid t ∈ s.trace ∨ t = s.currentTime := by
        intro rid t hm
        rw [hf.2.2.2.2.2.2.2.1] at hm
        rcases hi'.2.2.2.2.2.2.2.2.2.2 rid t hm with h1 | h1
        · exact Or.inl (hany.2.2 rid t h1)
        · exact Or.inr (h1.trans hany.1)
      split
      · exact ⟨hcur, hcw, hmem⟩
      · exact ⟨hcur, hcw, hmem⟩

theorem afterWait_payloads (g : Graph) (fuel : Nat) (phys : Nat → Int) (s : State)
    (c : Int) (s' : State) (h : afterWait g fuel phys s = .ret c s') :
    ∃ popped, s'.drained = s.drained ++ popped ∧ s'.freeQ = [] ∧
      s'.freed = s.freed ++ (s.freeQ ++ parked popped).map (fun e => e.payload) ∧
      ∀ e ∈ parked popped, e ∈ s'.recycleQ := by
  unfold afterWait at h
  cases hd : drainLoop g fuel s with
  | npe s1 => rw [hd] at h; cases h
  | fuelOut s1 => rw [hd] at h; cases h
  | ok s1 =>
    rw [hd] at h
    simp only at h
    cases hi : invokeLoop g phys fuel s1 with
    | none => rw [hi] at h; cases h
    | some s2 =>
      rw [hi] at h
      simp only at h
      have hd' := drainLoop_ok_spec g fuel s s1 hd
      have hi' := invokeLoop_some_spec g phys fuel s1 s2 hi
      have hf := freePhase_spec s2
      obtain ⟨popped, hdr, hfq⟩ := hd'.2.2.2.2.2.2
      have hfq2 : s2.freeQ = s.freeQ ++ parked popped := by
        rw [hi'.2.2.2.2.2.2.1, hfq]
      have hdr2 : s2.drained = s.drained ++ popped := by
        rw [hi'.2.2.2.2.2.2.2.2.1, hdr]
      have key :
          (freePhase s2).drained = s.drained ++ popped ∧ (freePhase s2).freeQ = [] ∧
          (freePhase s2).freed = s.freed ++ (s.freeQ ++ parked popped).map (fun e => e.payload) ∧
          ∀ e ∈ parked popped, e ∈ (freePhase s2).recycleQ := by
        refine ⟨by rw [hf.2.2.2.2.2.2.2.2, hdr2], hf.1, ?_, ?_⟩
        · rw [hf.2.2.1, hi'.2.2.2.2.2.2.2.1, hd'.2.2.2.2.1, hfq2]
        · intro e he
          rw [hf.2.1, List.mem_append, hfq2]
          exact Or.inr (List.mem_append.2 (Or.inr he))
      split at h
      · cases h; exact ⟨popped, key.1, key.2.1, key.2.2.1, key.2.2.2⟩
      · cases h; exact ⟨popped, key.1, key.2.1, key.2.2.1, key.2.2.2⟩

theorem afterWait_no_npe (g : Graph) (fuel : Nat) (phys : Nat → Int) (s : State)
    (hne : s.eventQ ≠ []) : (afterWait g fuel phys s).isNpe = false := by
  unfold afterWait
  cases hd : drainLoop g fuel s with
  | npe s1 => exact absurd hd (drainLoop_no_npe g fuel s hne s1)
  | fuelOut s1 => simp [Outcome.isNpe]
  | ok s1 =>
    simp only
    cases hi : invokeLoop g phys fuel s1 with
    | none => simp [Outcome.isNpe]
    | some s2 =>
      simp only
      split <;> simp [Outcome.isNpe]

theorem next_shape (g : Graph) (fuel : Nat) (sig : Bool) (phys : Nat → Int) (s : State) :
    (s.eventQ = [] ∧ s.waitSpecified = false ∧ next g fuel sig phys s = .ret 0 s)
  ∨ ∃ target,
      ((s.eventQ = [] ∧ target = LLONG_MAX) ∨ ∃ e rest, s.eventQ = e :: rest ∧ target = e.time) ∧
      (next g fuel sig phys s = .hang { s with trace := s.trace ++ [Entry.wait target] }
      ∨ (∃ cur, next g fuel sig phys s =
            .ret 0 { s with trace := s.trace ++ [Entry.wait target],
                            currentTime := cur, stopRequested := true })
      ∨ (∃ cur, s.eventQ ≠ [] ∧ (0 < s.stopTime → cur ≤ s.stopTime) ∧
            next g fuel sig phys s =
              afterWait g fuel phys
                { s with trace := s.trace ++ [Entry.wait target], currentTime := cur })) := by
  cases hq : s.eventQ with
  | nil =>
    by_cases hw : s.waitSpecified
    · right
      refine ⟨LLONG_MAX, Or.inl ⟨rfl, rfl⟩, ?_⟩
      cases sig with
      | true =>
        right; left
        refine ⟨s.currentTime, ?_⟩
        have hwu : wait_until s.stopTime s.currentTime LLONG_MAX true =
            some (-2, s.currentTime) := by simp [wait_until]
        simp [next, waitPhase, hq, hw, hwu]
      | false =>
        by_cases hc : 0 < s.stopTime ∧ s.stopTime < LLONG_MAX
        · right; left
          refine ⟨s.stopTime, ?_⟩
          have hne : ¬s.stopTime = LLONG_MAX := by omega
          have hwu : wait_until s.stopTime s.currentTime LLONG_MAX false =
              some (-1, s.stopTime) := by simp [wait_until, hc, hne]
          have hcond : 0 < s.stopTime ∧ s.stopTime ≤ s.stopTime := ⟨hc.1, le_refl _⟩
          simp [next, waitPhase, hq, hw, hwu, hcond]
        · left
          have hwu : wait_until s.stopTime s.currentTime LLONG_MAX false = none := by
            simp [wait_until, hc]
          simp [next, waitPhase, hq, hw, hwu]
    · left
      simp [next, hq, hw]
  | cons e rest =>
    right
    refine ⟨e.time, Or.inr ⟨e, rest, rfl, rfl⟩, ?_⟩
    cases sig with
    | true =>
      have hwu : wait_until s.stopTime s.currentTime e.time true =
          some (-2, s.currentTime) := by simp [wait_until]
      by_cases hstop : 0 < s.stopTime ∧ s.stopTime ≤ s.currentTime
      · right; left
        exact ⟨s.currentTime, by simp [next, waitPhase, hq, hwu, hstop]⟩
      · right; right
        refine ⟨s.currentTime, by simp, by omega, ?_⟩
        simp [next, waitPhase, hq, hwu, hstop]
    | false =>
      by_cases hc : 0 < s.stopTime ∧ s.stopTime < e.time
      · by_cases hm : s.stopTime = LLONG_MAX
        · left
          have hwu : wait_until s.stopTime s.currentTime e.time false = none := by
            unfold wait_until
            split_ifs <;> first | rfl | simp_all
          simp [next, waitPhase, hq, hwu]
        · right; left
          refine ⟨s.stopTime, ?_⟩
          have hwu : wait_until s.stopTime s.currentTime e.time false =
              some (-1, s.stopTime) := by simp [wait_until, hc, hm]
          have hcond : 0 < s.stopTime ∧ s.stopTime ≤ s.stopTime := ⟨hc.1, le_refl _⟩
          simp [next, waitPhase, hq, hwu, hcond]
      · by_cases hm : e.time = LLONG_MAX
        · left
          have hwu : wait_until s.stopTime s.currentTime e.time false = none := by
            unfold wait_until
            split_ifs <;> first | rfl | simp_all
          simp [next, waitPhase, hq, hwu]
        · right; right
          refine ⟨e.time, by simp, by omega, ?_⟩
          have hwu : wait_until s.stopTime s.currentTime e.time false =
              some (0, e.time) := by simp [wait_until, hc, hm]
          simp [next, waitPhase, hq, hwu]

theorem next_ret_pres (g : Graph) (fuel : Nat) (sig : Bool) (phys : Nat → Int)
    (s : State) (c : Int) (s' : State) (h : next g fuel sig phys s = .ret c s') :
    s'.stopTime = s.stopTime ∧ s'.waitSpecified = s.waitSpecified ∧ (c = 0 ∨ c = 1) := by
  rcases next_shape g fuel sig phys s with ⟨_, _, heq⟩ |
    ⟨target, _, heq | ⟨cur, heq⟩ | ⟨cur, _, _, heq⟩⟩
  · rw [heq] at h; cases h; exact ⟨rfl, rfl, Or.inl rfl⟩
  · rw [heq] at h; cases h
  · rw [heq] at h; cases h; exact ⟨rfl, rfl, Or.inl rfl⟩
  · rw [heq] at h
    have hs := afterWait_ret_spec _ _ _ _ _ _ h
    exact ⟨hs.2.2.1, hs.2.2.2.1, hs.1⟩

theorem next_invoke_bound (g : Graph) (fuel : Nat) (sig : Bool) (phys : Nat → Int)
    (s : State) (hstop : 0 < s.stopTime) (rid : Nat) (t : Int)
    (hm : Entry.invoke rid t ∈ (next g fuel sig phys s).st.trace) :
    Entry.invoke rid t ∈ s.trace ∨ t ≤ s.stopTime := by
  rcases next_shape g fuel sig phys s with ⟨_, _, heq⟩ |
    ⟨target, _, heq | ⟨cur, heq⟩ | ⟨cur, _, hb, heq⟩⟩
  · rw [heq] at hm; exact Or.inl hm
  · rw [heq] at hm
    simp only [Outcome.st] at hm
    rcases List.mem_append.1 hm with h1 | h1
    · exact Or.inl h1
    · simp at h1
  · rw [heq] at hm
    simp only [Outcome.st] at hm
    rcases List.mem_append.1 hm with h1 | h1
    · exact Or.inl h1
    · simp at h1
  · rw [heq] at hm
    rcases (afterWait_any g fuel phys _).2.2 rid t hm with h1 | h1
    · rcases List.mem_append.1 h1 with h2 | h2
      · exact Or.inl h2
      · simp at h2
    · exact Or.inr (h1.le.trans (hb hstop))

/-! ## Claim theorems -/

/-- C1: for every `schedule(trigger, extra_delay, payload)` call with
`extra_delay < 0`, the computed firing tag `T` is clamped so that
`T ≥ current_tag`, and the net delay applied on top of the current tag is
never negative for any accepted `schedule` call. -/
theorem c1_negative_delay_clamped (current : Tag) (t : Trigger) (d : Int) :
    (d < 0 → Tag.le current (scheduleTag current t d)) ∧
    0 ≤ (scheduleTag current t d).time - current.time := by
  unfold scheduleTag scheduleTagDelay Tag.le
  constructor
  · intro _
    by_cases h : max 0 (t.offset + d) = 0
    · simp [h]
    · simp [h]
      omega
  · by_cases h : max 0 (t.offset + d) = 0
    · simp [h]
    · simp [h]

/-- Witness for C1 at a concrete call: current tag `(5, 2)`, trigger offset
`0`, extra delay `-3`. -/
theorem c1_negative_delay_clamped_witness :
    Tag.le ⟨5, 2⟩ (scheduleTag ⟨5, 2⟩ trigZero (-3)) ∧
    0 ≤ (scheduleTag ⟨5, 2⟩ trigZero (-3)).time - (5 : Int) :=
  ⟨(c1_negative_delay_clamped ⟨5, 2⟩ trigZero (-3)).1 (by decide),
   (c1_negative_delay_clamped ⟨5, 2⟩ trigZero (-3)).2⟩

/-- C2 counterexample: with current tag `(0, 0)`, trigger offset `0` and
`extra_delay = -1`, the claimed firing tag
`(current_instant + offset + extra_delay, 0) = (-1, 0)` is not what the
scheduler produces: the negative net delay is clamped and the event fires at
`(0, 1)`. -/
theorem c2_counterexample :
    scheduleTag ⟨0, 0⟩ trigZero (-1) = ⟨0, 1⟩ ∧
    scheduleTag ⟨0, 0⟩ trigZero (-1) ≠ ⟨0 + trigZero.offset + -1, 0⟩ := by
  constructor <;> decide

/-- C2 (amended): for every call with non-negative net delay
`trigger.offset + extra_delay ≥ 0`, the firing tag is
`(current_instant + trigger.offset + extra_delay, μ)` with
`μ = current_tag.microstep + 1` when `trigger.offset + extra_delay = 0` and
`μ = 0` otherwise; a negative net delay is instead clamped to the tag
`(current_instant, current_tag.microstep + 1)`. -/
theorem c2_firing_tag_formula (current : Tag) (t : Trigger) (d : Int) :
    (0 ≤ t.offset + d →
      scheduleTag current t d =
        ⟨current.time + t.offset + d,
         if t.offset + d = 0 then current.microstep + 1 else 0⟩) ∧
    (t.offset + d < 0 →
      scheduleTag current t d = ⟨current.time, current.microstep + 1⟩) := by
  unfold scheduleTag scheduleTagDelay
  constructor
  · intro h
    by_cases h0 : t.offset + d = 0
    · simp [h0]
      omega
    · have hmax : max 0 (t.offset + d) = t.offset + d := by omega
      simp [hmax, h0, add_assoc]
  · intro h
    have hmax : max 0 (t.offset + d) = 0 := by omega
    simp [hmax]

/-- Witness for C2 (amended) at a concrete call: current tag `(7, 1)`,
trigger offset `0`, extra delay `4`, firing tag `(11, 0)`. -/
theorem c2_firing_tag_formula_witness :
    scheduleTag ⟨7, 1⟩ trigZero 4 =
      ⟨(7 : Int) + trigZero.offset + 4,
       if trigZero.offset + 4 = 0 then 1 + 1 else 0⟩ :=
  (c2_firing_tag_formula ⟨7, 1⟩ trigZero 4).1 (by decide)

/-- C3: when a reaction `r` with `r.deadline > 0` is dispatched, the physical
clock is sampled; if the sampled time `P` exceeds `current_time + r.deadline`
and `r`'s deadline-violation trigger is non-null, each reaction of that
trigger is invoked exactly once, before `r`'s own function, and the handlers'
output reactions are not chained (the reaction queue receives only `r`'s own
outputs); `r`'s own function is invoked afterwards regardless, and when
`P ≤ current_time + r.deadline` (or the violation trigger is null) only `r`'s
function is invoked. -/
theorem c3_deadline_policy (g : Graph) (phys : Nat → Int) (rid : Nat) (s : State) :
    ((g.reactions rid).deadline ≤ 0 →
      (invokeStep g phys rid s).clock = s.clock ∧
      (invokeStep g phys rid s).trace =
        s.trace ++ [Entry.invoke rid s.currentTime, Entry.chain rid]) ∧
    (0 < (g.reactions rid).deadline → (invokeStep g phys rid s).clock = s.clock + 1) ∧
    (∀ tid, 0 < (g.reactions rid).deadline →
      s.currentTime + (g.reactions rid).deadline < phys s.clock →
      (g.reactions rid).deadlineViolation = some tid →
      (invokeStep g phys rid s).trace =
        s.trace ++ (g.triggers tid).reactions.map (fun h => Entry.invoke h s.currentTime)
          ++ [Entry.invoke rid s.currentTime, Entry.chain rid] ∧
      (invokeStep g phys rid s).reactionQ = enqueueAll g (g.outputs rid) s.reactionQ) ∧
    (0 < (g.reactions rid).deadline →
      s.currentTime + (g.reactions rid).deadline < phys s.clock →
      (g.reactions rid).deadlineViolation = none →
      (invokeStep g phys rid s).trace =
        s.trace ++ [Entry.invoke rid s.currentTime, Entry.chain rid]) ∧
    (0 < (g.reactions rid).deadline →
      phys s.clock ≤ s.currentTime + (g.reactions rid).deadline →
      (invokeStep g phys rid s).trace =
        s.trace ++ [Entry.invoke rid s.currentTime, Entry.chain rid]) := by
  refine ⟨?_, ?_, ?_, ?_, ?_⟩
  · intro hdl
    have hdl' : ¬0 < (g.reactions rid).deadline := by omega
    constructor <;> simp [invokeStep, hdl']
  · intro hdl
    by_cases hv : s.currentTime + (g.reactions rid).deadline < phys s.clock <;>
      cases hviol : (g.reactions rid).deadlineViolation <;>
      simp [invokeStep, hdl, hv, hviol]
  · intro tid hdl hv hviol
    constructor <;> simp [invokeStep, hdl, hv, hviol]
  · intro hdl hv hviol
    simp [invokeStep, hdl, hv, hviol]
  · intro hdl hv
    have hv' : ¬s.currentTime + (g.reactions rid).deadline < phys s.clock := by omega
    simp [invokeStep, hdl, hv']

/-- Witness for C3: deadline reaction 0 of `gDeadline` dispatched at logical
time 100 with the physical clock at 500 (violation: `500 > 100 + 10`): both
handler reactions (5 and 6) run once, in order, before reaction 0, and the
reaction queue receives only reaction 0's outputs. -/
theorem c3_deadline_policy_witness :
    (invokeStep gDeadline physLate 0 stC3).trace =
      stC3.trace ++ (gDeadline.triggers 7).reactions.map
          (fun h => Entry.invoke h stC3.currentTime)
        ++ [Entry.invoke 0 stC3.currentTime, Entry.chain 0] ∧
    (invokeStep gDeadline physLate 0 stC3).reactionQ =
      enqueueAll gDeadline (gDeadline.outputs 0) stC3.reactionQ :=
  (c3_deadline_policy gDeadline physLate 0 stC3).2.2.1 7 (by decide) (by decide) (by decide)

/-- C5: `next` returns only 0 or 1; when `event_q` is empty at entry and
`wait_specified` is false it returns 0 immediately, leaving the state (in
particular `current_time` and the invocation trace) untouched; when
`event_q` is empty and `wait_specified` is true it instead waits with
`next_instant` set to `LLONG_MAX`. -/
theorem c5_next_return_values (g : Graph) (fuel : Nat) (sig : Bool)
    (phys : Nat → Int) (s : State) :
    (∀ c s', next g fuel sig phys s = .ret c s' → c = 0 ∨ c = 1) ∧
    (s.eventQ = [] → s.waitSpecified = false → next g fuel sig phys s = .ret 0 s) ∧
    (s.eventQ = [] → s.waitSpecified = true →
      (next g fuel sig phys s).st.trace = s.trace ++ [Entry.wait LLONG_MAX]) := by
  refine ⟨?_, ?_, ?_⟩
  · intro c s' h
    exact (next_ret_pres g fuel sig phys s c s' h).2.2
  · intro hq hw
    simp [next, hq, hw]
  · intro hq hw
    rcases next_shape g fuel sig phys s with ⟨_, hw', _⟩ |
      ⟨target, htgt, heq | ⟨cur, heq⟩ | ⟨cur, hne, _, heq⟩⟩
    · rw [hw] at hw'; cases hw'
    · have htarget : target = LLONG_MAX := by
        rcases htgt with ⟨_, ht⟩ | ⟨e, rest, he, _⟩
        · exact ht
        · rw [hq] at he; cases he
      subst htarget
      rw [heq]
      rfl
    · have htarget : target = LLONG_MAX := by
        rcases htgt with ⟨_, ht⟩ | ⟨e, rest, he, _⟩
        · exact ht
        · rw [hq] at he; cases he
      subst htarget
      rw [heq]
      rfl
    · exact absurd hq hne

/-- Witness for C5: from the empty start state without `-wait`, `next`
returns 0 with the state unchanged; with `-wait`, the recorded wait bound is
`LLONG_MAX`. -/
theorem c5_next_return_values_witness :
    next gSimple 8 false physZero st0 = .ret 0 st0 ∧
    (next gSimple 8 true physZero stEmptyWait).st.trace =
      stEmptyWait.trace ++ [Entry.wait LLONG_MAX] :=
  ⟨(c5_next_return_values gSimple 8 false physZero st0).2.1 rfl rfl,
   (c5_next_return_values gSimple 8 true physZero stEmptyWait).2.2 rfl rfl⟩

/-- C9: on every path of `next` that reaches the drain loop, the
unconditional first `pqueue_pop(event_q)` finds a non-empty queue: the
NULL-pointer-dereference outcome is unreachable, for every state — including
the path where `event_q` was empty at entry, `wait_specified` is true, and
the wait ends (the wait on `LLONG_MAX` can only end interrupted, and the
re-peek then returns 0 before the drain loop). -/
theorem c9_drain_pop_safe (g : Graph) (fuel : Nat) (sig : Bool)
    (phys : Nat → Int) (s : State) :
    (next g fuel sig phys s).isNpe = false := by
  rcases next_shape g fuel sig phys s with ⟨_, _, heq⟩ |
    ⟨target, _, heq | ⟨cur, heq⟩ | ⟨cur, hne, _, heq⟩⟩
  · rw [heq]; rfl
  · rw [heq]; rfl
  · rw [heq]; rfl
  · rw [heq]
    exact afterWait_no_npe g fuel phys _ hne

/-- C7 counterexample: one event at time 100, no stop time, wait interrupted
by a signal.  The claim says the loop re-waits until physical time reaches
the head instant before draining; instead `next` proceeds to drain in the
same call: exactly one wait is recorded, reaction 0 is invoked at the stale
logical time 0 (the head instant 100 was never reached), and 1 is
returned. -/
theorem c7_counterexample :
    (next gSimple 8 true physZero stAt100).retCode = some 1 ∧
    (next gSimple 8 true physZero stAt100).st.trace =
      [Entry.wait 100, Entry.invoke 0 0, Entry.chain 0] ∧
    (next gSimple 8 true physZero stAt100).st.currentTime = 0 ∧
    countWait (next gSimple 8 true physZero stAt100).st.trace = 1 := by
  refine ⟨?_, ?_, ?_, ?_⟩ <;> decide

/-- C7 (amended): when the wait in `next` is interrupted, the queue head is
unchanged (single-threaded core); if the stop time has been reached or the
head is null, the stop flag is set and 0 is returned; in every other
interrupted case the interruption is absorbed but `next` does *not* re-wait:
it proceeds directly to the drain phase of the same iteration, recording
exactly one wait. -/
theorem c7_interrupted_wait (g : Graph) (fuel : Nat) (phys : Nat → Int) (s : State) :
    (∀ e rest, s.eventQ = e :: rest →
      ((0 < s.stopTime ∧ s.stopTime ≤ s.currentTime →
        next g fuel true phys s =
          .ret 0 { s with trace := s.trace ++ [Entry.wait e.time],
                          stopRequested := true }) ∧
      (¬(0 < s.stopTime ∧ s.stopTime ≤ s.currentTime) →
        next g fuel true phys s =
          afterWait g fuel phys { s with trace := s.trace ++ [Entry.wait e.time] } ∧
        countWait (next g fuel true phys s).st.trace = countWait s.trace + 1))) ∧
    (s.eventQ = [] → s.waitSpecified = true →
      next g fuel true phys s =
        .ret 0 { s with trace := s.trace ++ [Entry.wait LLONG_MAX],
                        stopRequested := true }) := by
  constructor
  · intro e rest hq
    have hwu : wait_until s.stopTime s.currentTime e.time true =
        some (-2, s.currentTime) := by simp [wait_until]
    constructor
    · intro hstop
      simp [next, waitPhase, hq, hwu, hstop]
    · intro hstop
      have heq : next g fuel true phys s =
          afterWait g fuel phys { s with trace := s.trace ++ [Entry.wait e.time] } := by
        simp [next, waitPhase, hq, hwu, hstop]
      refine ⟨heq, ?_⟩
      rw [heq]
      have h1 := (afterWait_any g fuel phys
        { s with trace := s.trace ++ [Entry.wait e.time] }).2.1
      rw [h1]
      simp [countWait_append, countWait, List.countP_cons]
  · intro hq hw
    have hwu : wait_until s.stopTime s.currentTime LLONG_MAX true =
        some (-2, s.currentTime) := by simp [wait_until]
    simp [next, waitPhase, hq, hw, hwu]

/-- Witness for C7 (amended): with stop time 5 already passed at logical
time 7, the interrupted wait yields `ret 0` with the stop flag set; with no
stop time, the interrupted wait falls through to the drain phase of the same
call. -/
theorem c7_interrupted_wait_witness :
    next gSimple 8 true physZero { stAt100 with stopTime := 5, currentTime := 7 } =
      .ret 0 { stAt100 with
               stopTime := 5
               currentTime := 7
               trace := [Entry.wait 100]
               stopRequested := true } ∧
    next gSimple 8 true physZero stAt100 =
      afterWait gSimple 8 physZero { stAt100 with trace := [Entry.wait 100] } :=
  ⟨((c7_interrupted_wait gSimple 8 physZero
      { stAt100 with stopTime := 5, currentTime := 7 }).1
        ⟨100, 0, none⟩ [] rfl).1 (by decide),
   (((c7_interrupted_wait gSimple 8 physZero stAt100).1
        ⟨100, 0, none⟩ [] rfl).2 (by decide)).1⟩

theorem loopRun_invoke_bound (g : Graph) (nfuel : Nat) (phys : Nat → Int)
    (sigs : Nat → Bool) :
    ∀ lfuel k s s', loopRun g nfuel phys sigs lfuel k s = .done s' →
      0 < s.stopTime → ∀ rid t, Entry.invoke rid t ∈ s'.trace →
      Entry.invoke rid t ∈ s.trace ∨ t ≤ s.stopTime := by
  intro lfuel
  induction lfuel with
  | zero => intro k s s' h; simp [loopRun] at h
  | succ n ih =>
    intro k s s' h hstop rid t hm
    unfold loopRun at h
    cases hn : next g nfuel (sigs k) phys s with
    | ret c s1 =>
      rw [hn] at h
      simp only at h
      split at h
      · cases h
        exact next_invoke_bound g nfuel (sigs k) phys s hstop rid t (by rw [hn]; exact hm)
      · split at h
        · cases h
          exact next_invoke_bound g nfuel (sigs k) phys s hstop rid t (by rw [hn]; exact hm)
        · have hpres := next_ret_pres g nfuel (sigs k) phys s c s1 hn
          have hstop1 : 0 < s1.stopTime := by rw [hpres.1]; exact hstop
          rcases ih (k + 1) s1 s' h hstop1 rid t hm with h1 | h1
          · exact next_invoke_bound g nfuel (sigs k) phys s hstop rid t (by rw [hn]; exact h1)
          · right; rw [← hpres.1]; exact h1
    | hang s1 => rw [hn] at h; cases h
    | npe s1 => rw [hn] at h; cases h
    | fuelOut s1 => rw [hn] at h; cases h

/-- C4: with a stop time configured (`stop_time > 0`): an iteration that
completes its drain and reaction phases ends with the stop flag set and
return value 0 whenever the current instant has reached the stop time; every
reaction invocation recorded by a `next` call — and hence by a whole run of
the driver loop — happens at an instant `≤ stop_time`, so no reaction with
`tag.instant > stop_time` ever fires; and because the check sits after the
tag is drained, an event exactly at the stop instant still fires (shown on
the concrete stop-at-100 scenario). -/
theorem c4_stop_time_semantics :
    (∀ g fuel phys s c s', afterWait g fuel phys s = Outcome.ret c s' →
      0 < s'.stopTime → s'.stopTime ≤ s'.currentTime →
      c = 0 ∧ s'.stopRequested = true) ∧
    (∀ g fuel sig phys s rid t, 0 < s.stopTime →
      Entry.invoke rid t ∈ (next g fuel sig phys s).st.trace →
      Entry.invoke rid t ∈ s.trace ∨ t ≤ s.stopTime) ∧
    (∀ g nfuel phys sigs lfuel k s s', loopRun g nfuel phys sigs lfuel k s = .done s' →
      0 < s.stopTime → ∀ rid t, Entry.invoke rid t ∈ s'.trace →
      Entry.invoke rid t ∈ s.trace ∨ t ≤ s.stopTime) ∧
    ((next gSimple 8 false physZero stStop100).retCode = some 0 ∧
     Entry.invoke 0 100 ∈ (next gSimple 8 false physZero stStop100).st.trace ∧
     (next gSimple 8 false physZero stStop100).st.stopRequested = true ∧
     stStop100.stopTime = 100) := by
  refine ⟨?_, ?_, ?_, ?_, ?_, ?_, ?_⟩
  · intro g fuel phys s c s' h h1 h2
    exact (afterWait_ret_spec g fuel phys s c s' h).2.2.2.2 h1 h2
  · intro g fuel sig phys s rid t hstop hm
    exact next_invoke_bound g fuel sig phys s hstop rid t hm
  · intro g nfuel phys sigs lfuel k s s' h hstop rid t hm
    exact loopRun_invoke_bound g nfuel phys sigs lfuel k s s' h hstop rid t hm
  · decide
  · decide
  · decide
  · decide

/-- Witness for C4: the driver loop from the stop-at-100 scenario reaches
`done`, and the invocation of reaction 0 recorded in the final state happens
within the stop time. -/
theorem c4_stop_time_semantics_witness :
    Entry.invoke 0 100 ∈ stStop100.trace ∨ (100 : Int) ≤ stStop100.stopTime :=
  c4_stop_time_semantics.2.2.1 gSimple 8 physZero sigsNone 5 0 stStop100 stStop100Run
    (by decide) (by decide) 0 100 (by decide)

/-- C6 counterexample: the periodic trigger with offset 1 and period 3 fires
at instants 1 and then 3 — not at `offset + period = 4` as the claimed
sequence `offset, offset+P, offset+2P, …` requires: the reschedule passes
`period − offset` to `__schedule`, which adds no offset back. -/
theorem c6_counterexample :
    (next gPeriodic 8 false physZero stPeriodic).retCode = some 1 ∧
    (next gPeriodic 8 false physZero stPeriodic1).retCode = some 1 ∧
    invokeTimes stPeriodic2.trace = [1, 3] ∧
    (gPeriodic.triggers 0).offset = 1 ∧ (gPeriodic.triggers 0).period = 3 ∧
    invokeTimes stPeriodic2.trace ≠ [1, 1 + 3] := by
  refine ⟨?_, ?_, ?_, ?_, ?_, ?_⟩ <;> decide

/-- C6 (amended): every event popped by the drain loop whose trigger has
`period > 0` causes exactly one rescheduling of that trigger — one
`__schedule` call with delay `period − offset` and NULL payload — inserting
the next event at instant `current_time + max(0, period − offset)`; an event
whose trigger is not periodic causes no `__schedule` call.  Successive
firings of a periodic trigger are therefore `period − offset` apart, which
matches the claimed `offset, offset+P, offset+2P, …` only when
`offset = 0`. -/
theorem c6_periodic_reschedule (g : Graph) (e : Event) (s : State) :
    (0 < (g.triggers e.trigger).period →
      (drainStep g e s).trace = s.trace ++
        [Entry.sched e.trigger
          ((g.triggers e.trigger).period - (g.triggers e.trigger).offset) none] ∧
      (drainStep g e s).eventQ = insertEvent
        ⟨s.currentTime + max 0 ((g.triggers e.trigger).period - (g.triggers e.trigger).offset),
         e.trigger, none⟩ s.eventQ) ∧
    ((g.triggers e.trigger).period ≤ 0 → (drainStep g e s).trace = s.trace ∧
      (drainStep g e s).eventQ = s.eventQ) := by
  constructor
  · intro hper
    cases hp : e.payload <;>
      constructor <;> simp [drainStep, schedInsert, hp, hper]
  · intro hper
    have hper' : ¬0 < (g.triggers e.trigger).period := by omega
    cases hp : e.payload <;>
      constructor <;> simp [drainStep, schedInsert, hp, hper']

/-- Witness for C6 (amended): popping the periodic event (offset 1,
period 3) at instant 1 reschedules once, with delay 2 and NULL payload, and
the new event lands at instant 3. -/
theorem c6_periodic_reschedule_witness :
    (drainStep gPeriodic ⟨1, 0, none⟩ stPeriodicPop).trace =
      stPeriodicPop.trace ++ [Entry.sched 0 (3 - 1) none] ∧
    (drainStep gPeriodic ⟨1, 0, none⟩ stPeriodicPop).eventQ =
      insertEvent ⟨1 + max 0 (3 - 1), 0, none⟩ stPeriodicPop.eventQ :=
  (c6_periodic_reschedule gPeriodic ⟨1, 0, none⟩ stPeriodicPop).1 (by decide)

/-- C8: in every `next` iteration (entered with `free_q` empty, as every real
iteration is), each event popped at the current tag has its payload pointer
copied into its trigger and its time field zeroed, and is placed into
`recycle_q` when its payload is NULL and into `free_q` otherwise; when the
iteration returns, `free_q` has been fully drained, each non-NULL payload
accepted at this tag has been passed to `free` exactly once (the `freed`
trace grows by exactly the payloads of the drained events, in order), and
the records carrying them are back in `recycle_q`. -/
theorem c8_payload_freed_once :
    (∀ g fuel sig phys s c s', s.freeQ = [] → s.drained = [] →
      next g fuel sig phys s = Outcome.ret c s' →
      s'.freeQ = [] ∧
      s'.freed = s.freed ++ (s'.drained.filterMap (fun e => e.payload)).map Option.some ∧
      ∀ e, e ∈ s'.drained → e.payload ≠ none →
        ({ e with time := 0 } : Event) ∈ s'.recycleQ) ∧
    (∀ g e s, lookupTP (drainStep g e s).trigPayloads e.trigger = some e.payload ∧
      (e.payload = none → ({ e with time := 0 } : Event) ∈ (drainStep g e s).recycleQ) ∧
      (e.payload ≠ none → ({ e with time := 0 } : Event) ∈ (drainStep g e s).freeQ)) := by
  constructor
  · intro g fuel sig phys s c s' hfq hdr h
    rcases next_shape g fuel sig phys s with ⟨_, _, heq⟩ |
      ⟨target, _, heq | ⟨cur, heq⟩ | ⟨cur, _, _, heq⟩⟩
    · rw [heq] at h
      cases h
      refine ⟨hfq, by rw [hdr]; simp, ?_⟩
      intro e he
      rw [hdr] at he
      exact absurd he (List.not_mem_nil _)
    · rw [heq] at h; cases h
    · rw [heq] at h
      cases h
      refine ⟨hfq, by rw [hdr]; simp, ?_⟩
      intro e he
      rw [hdr] at he
      exact absurd he (List.not_mem_nil _)
    · rw [heq] at h
      obtain ⟨popped, hdr', hfq', hfr', hrec⟩ := afterWait_payloads g fuel phys _ c s' h
      simp only at hdr' hfr' hrec
      have hpop : s'.drained = popped := by
        rw [hdr']
        show s.drained ++ popped = popped
        rw [hdr]
        simp
      refine ⟨hfq', ?_, ?_⟩
      · rw [hfr', hfq, hpop]
        simp [parked_payloads]
      · intro e he hp
        rw [hpop] at he
        exact hrec _ (parked_mem popped e he hp)
  · intro g e s
    refine ⟨?_, ?_, ?_⟩
    · cases hp : e.payload <;>
        by_cases hper : 0 < (g.triggers e.trigger).period <;>
        simp [drainStep, schedInsert, lookupTP, hp, hper]
    · intro hp
      by_cases hper : 0 < (g.triggers e.trigger).period <;>
        simp [drainStep, schedInsert, hp, hper]
    · intro hp
      cases hpp : e.payload with
      | none => exact absurd hpp hp
      | some v =>
        by_cases hper : 0 < (g.triggers e.trigger).period <;>
          simp [drainStep, schedInsert, hpp, hper]

/-- Witness for C8 on the concrete two-event tag at instant 5 (payload 42
and NULL): after the iteration `free_q` is empty, exactly `[some 42]` was
freed, and the zeroed record that carried payload 42 is back in
`recycle_q`. -/
theorem c8_payload_freed_once_witness :
    stPayloadRun.freeQ = [] ∧
    stPayloadRun.freed = stPayload.freed ++
      (stPayloadRun.drained.filterMap (fun e => e.payload)).map Option.some ∧
    ({ time := 0, trigger := 0, payload := some 42 } : Event) ∈ stPayloadRun.recycleQ := by
  have h := c8_payload_freed_once.1 gSimple 8 false physZero stPayload 1 stPayloadRun
    rfl rfl (by decide)
  exact ⟨h.1, h.2.1, h.2.2 ⟨5, 0, some 42⟩ (by decide) (by decide)⟩

/-- C10: `main` returns -1 when `process_args` fails, running neither the
setup, nor the timer priming, nor the event loop, nor `wrapup`; when
`process_args` succeeds and the `next` loop terminates, `main` runs setup,
timer priming, the loop, and `wrapup`, in that order, and returns 0. -/
theorem c10_main_exit_codes (g : Graph) (nfuel lfuel : Nat) (phys : Nat → Int)
    (sigs : Nat → Bool) (s0 : State) :
    mainFn g nfuel lfuel phys sigs false s0 = .exit (-1) [] ∧
    (∀ s', loopRun g nfuel phys sigs lfuel 0 s0 = .done s' →
      mainFn g nfuel lfuel phys sigs true s0 =
        .exit 0 [Phase.setup, Phase.startTimers, Phase.mainLoop, Phase.wrapupPhase]) := by
  constructor
  · simp [mainFn]
  · intro s' h
    simp [mainFn, h]

/-- Witness for C10: with a successfully parsed command line and the empty
start state, `main` exits 0 after all four lifecycle phases. -/
theorem c10_main_exit_codes_witness :
    mainFn gSimple 8 5 physZero sigsNone true st0 =
      .exit 0 [Phase.setup, Phase.startTimers, Phase.mainLoop, Phase.wrapupPhase] :=
  (c10_main_exit_codes gSimple 8 5 physZero sigsNone st0).2 st0 (by decide)

end ReactorC
